import Mathlib

/-!
Verification of the epoch-based reclamation (EBR) engine of the `circ`
repository.  The repository ships `src/ebr_impl/collector.rs` (Collector,
LocalHandle) and `src/ebr_impl/default.rs` (default collector, ambient
per-thread handle); the engine internals (`internal.rs`, `guard.rs`,
`epoch.rs`) are referenced but their code is not in the staged sources, so
they are modelled from the specification: a sequentially-consistent
interleaving semantics in which every participant step (pin, unpin, repin,
defer, flush, epoch advance, bag execution) is one atomic transition.
-/

namespace Circ

/-- Modulus of the unsigned machine word carrying the epoch counter
(2 ^ 64, written out so that omega can use it as a literal). -/
def USIZE_MOD : Nat := 18446744073709551616

/-- Rust `usize::wrapping_sub` on the 64-bit representations of two
abstract (unbounded) counters. -/
def wrapping_sub (a b : Nat) : Nat :=
  (a % USIZE_MOD + (USIZE_MOD - b % USIZE_MOD)) % USIZE_MOD

/-- Memory orderings of `core::sync::atomic::Ordering`. -/
inductive MemOrdering
  | relaxed
  | acquire
  | release
  | acqRel
  | seqCst
deriving DecidableEq, Repr

/-- Shape of the memory events an operation issues: atomic accesses with
their ordering, and stand-alone fences. -/
inductive MemEvent
  | load (o : MemOrdering)
  | store (o : MemOrdering)
  | rmw (o : MemOrdering)
  | fence
deriving DecidableEq, Repr

/-- Modelled from the spec: a Bag sealed with the epoch current at seal
time; an immutable unit of work on the Global queue.  Deferred actions are
identified by the unique id assigned at defer time. -/
structure SealedBag where
  sealEpoch : Nat
  actions : List Nat
deriving DecidableEq, Repr

/-- Modelled from the spec: one participant (a `Local`) — reentrant
pin-depth counter, the atomic (epoch, pinned-flag) pair, and the
currently-open Bag (as the list of deferred action ids it holds). -/
structure Participant where
  pinDepth : Nat
  pinnedEpoch : Nat
  pinnedFlag : Bool
  bag : List Nat
deriving DecidableEq, Repr

/-- `LocalHandle::is_pinned` reads the participant's pinned flag
(collector.rs lines 81–87 delegating to the Local). -/
def Participant.is_pinned (p : Participant) : Bool :=
  p.pinnedFlag

/-- Record of one executed deferred action: its id, the seal epoch of the
bag it travelled in, and the global epoch at the moment it executed. -/
structure ExecRecord where
  act : Nat
  sealEpoch : Nat
  execEpoch : Nat
deriving DecidableEq, Repr

/-- Modelled from the spec: the Global shared state — the epoch counter,
the registry of participants (a fixed family of `n` slots), the FIFO queue
of sealed bags, the log of executed actions, and the supply of fresh
action ids. -/
structure GState (n : Nat) where
  epoch : Nat
  participants : Fin n → Participant
  queue : List SealedBag
  executed : List ExecRecord
  nextId : Nat

/-- A freshly registered participant: unpinned, empty bag. -/
def initParticipant : Participant :=
  ⟨0, 0, false, []⟩

/-- Initial global state: epoch 0, all participants fresh, nothing queued
or executed. -/
def init (n : Nat) : GState n :=
  ⟨0, fun _ => initParticipant, [], [], 0⟩

/-- Modelled from the spec: fixed Bag capacity (e.g. 64 slots). -/
def MAX_OBJECTS : Nat := 64

/-- Modelled from the spec: `pin()` increments pin-depth; on the 0→1
transition it records the current global epoch and sets the pinned flag
(the full fence of the source justifies the atomicity of this step in the
interleaving model). -/
def Participant.doPin (p : Participant) (globalEpoch : Nat) : Participant :=
  if p.pinDepth = 0 then
    ⟨1, globalEpoch, true, p.bag⟩
  else
    { p with pinDepth := p.pinDepth + 1 }

/-- Modelled from the spec: `unpin()` decrements pin-depth; on the 1→0
transition it clears the pinned flag. -/
def Participant.doUnpin (p : Participant) : Participant :=
  if p.pinDepth = 1 then
    { p with pinDepth := 0, pinnedFlag := false }
  else
    { p with pinDepth := p.pinDepth - 1 }

/-- Modelled from the spec: `repin()/reactivate()` re-samples the global
epoch into the Local without fully unpinning. -/
def Participant.doRepin (p : Participant) (globalEpoch : Nat) : Participant :=
  { p with pinnedEpoch := globalEpoch }

/-- Modelled from the spec: the scan inside `try_advance` — the advance is
allowed only when no occupied slot is pinned with a recorded epoch
different from the snapshot. -/
def canAdvance {n : Nat} (s : GState n) : Bool :=
  decide (∀ i : Fin n,
    (s.participants i).pinnedFlag = true → (s.participants i).pinnedEpoch = s.epoch)

/-- Modelled from the spec: `try_advance()` snapshots the epoch, scans the
registry, and on success performs a single CAS from the snapshot to
snapshot+1, returning whether it succeeded. -/
def try_advance {n : Nat} (s : GState n) : Bool × GState n :=
  if canAdvance s then
    (true, { s with epoch := s.epoch + 1 })
  else
    (false, s)

/-- Modelled from the spec: `flush()` unconditionally seals the current
Bag (tagged with this Local's current epoch), publishes it to the Global
queue and opens a fresh empty Bag. -/
def flushLocal {n : Nat} (s : GState n) (i : Fin n) : GState n :=
  { s with
    participants := Function.update s.participants i
      ⟨(s.participants i).pinDepth, (s.participants i).pinnedEpoch,
        (s.participants i).pinnedFlag, []⟩,
    queue := s.queue ++ [⟨(s.participants i).pinnedEpoch, (s.participants i).bag⟩] }

/-- Modelled from the spec: the atomic transitions of the engine under an
arbitrary interleaving of participants.  `deferPush`/`deferSeal` are the
two branches of `defer` (room in the bag, or seal-and-retry on a full
bag); `advance` is one `try_advance` call; `popExec` pops the oldest
sealed bag and executes it, allowed only when its seal epoch is at most
the current epoch minus 2. -/
inductive Step {n : Nat} : GState n → GState n → Prop
  | pin (s : GState n) (i : Fin n) :
      Step s { s with
        participants := Function.update s.participants i
          ((s.participants i).doPin s.epoch) }
  | unpin (s : GState n) (i : Fin n) :
      0 < (s.participants i).pinDepth →
      Step s { s with
        participants := Function.update s.participants i
          (s.participants i).doUnpin }
  | repin (s : GState n) (i : Fin n) :
      (s.participants i).pinnedFlag = true →
      Step s { s with
        participants := Function.update s.participants i
          ((s.participants i).doRepin s.epoch) }
  | deferPush (s : GState n) (i : Fin n) :
      0 < (s.participants i).pinDepth →
      (s.participants i).bag.length < MAX_OBJECTS →
      Step s { s with
        participants := Function.update s.participants i
          { s.participants i with bag := (s.participants i).bag ++ [s.nextId] },
        nextId := s.nextId + 1 }
  | deferSeal (s : GState n) (i : Fin n) :
      0 < (s.participants i).pinDepth →
      ¬ (s.participants i).bag.length < MAX_OBJECTS →
      Step s { s with
        participants := Function.update s.participants i
          { s.participants i with bag := [s.nextId] },
        queue := s.queue ++ [⟨(s.participants i).pinnedEpoch, (s.participants i).bag⟩],
        nextId := s.nextId + 1 }
  | flush (s : GState n) (i : Fin n) :
      0 < (s.participants i).pinDepth →
      Step s (flushLocal s i)
  | advance (s : GState n) :
      Step s (try_advance s).2
  | popExec (s : GState n) (b : SealedBag) (rest : List SealedBag) :
      s.queue = b :: rest →
      b.sealEpoch + 2 ≤ s.epoch →
      Step s { s with
        queue := rest,
        executed := s.executed ++ b.actions.map fun a => ⟨a, b.sealEpoch, s.epoch⟩ }

/-- States reachable from the initial state by any interleaving. -/
def Reachable (n : Nat) (s : GState n) : Prop :=
  Relation.ReflTransGen Step (init n) s

/-- The transitions `collect()` itself performs after the bag is sealed:
one `try_advance` and any number of queue pops.  These never touch any
participant's open bag. -/
def CollectStep {n : Nat} (s s' : GState n) : Prop :=
  s' = (try_advance s).2 ∨
    ∃ b rest, s.queue = b :: rest ∧ b.sealEpoch + 2 ≤ s.epoch ∧
      s' = { s with
        queue := rest,
        executed := s.executed ++ b.actions.map fun a => ⟨a, b.sealEpoch, s.epoch⟩ }

/-- A step during which participant `i`'s pin is held: an arbitrary
engine step that leaves `i`'s pinned flag and recorded epoch unchanged
(no thread but `i`'s own can unpin or repin `i`, and `i` is inside
`collect`). -/
def PinHeld {n : Nat} (i : Fin n) (s s' : GState n) : Prop :=
  Step s s' ∧
    (s'.participants i).pinnedFlag = (s.participants i).pinnedFlag ∧
    (s'.participants i).pinnedEpoch = (s.participants i).pinnedEpoch

/-- `Collector::global_epoch` (collector.rs lines 39–43): one relaxed
atomic load of the Global's epoch; returns the value, leaves the state
unchanged, and issues the single relaxed load as its only memory event
(in particular no fence). -/
def global_epoch {n : Nat} (s : GState n) : Nat × GState n × List MemEvent :=
  (s.epoch, s, [MemEvent.load MemOrdering.relaxed])

/-- `Collector` (collector.rs line 11): an `Arc<Global>`, modelled by the
allocation identity of the Arc's target. -/
structure Collector where
  global : Nat
deriving DecidableEq, Repr

/-- `Collector::new` (collector.rs lines 18–32): allocates a fresh
`Arc<Global>`; the allocator state is threaded explicitly, so each call
yields a distinct allocation identity. -/
def Collector.new (alloc : Nat) : Collector × Nat :=
  (⟨alloc⟩, alloc + 1)

/-- `Clone for Collector` (collector.rs lines 46–53): another reference
to the same garbage collector — the Arc target is shared. -/
def Collector.clone (c : Collector) : Collector :=
  ⟨c.global⟩

/-- `PartialEq for Collector` (collector.rs lines 61–67):
`Arc::ptr_eq(&self.global, &rhs.global)`. -/
def collectorEq (a b : Collector) : Bool :=
  a.global == b.global

/-- Thread-scoped storage as consumed by default.rs: lazily initialized
on first use, torn down at thread exit, and — per the spec's collaborator
contract — reporting an access error once destroyed. -/
inductive TLSState (α : Type)
  | uninitialized
  | valid (a : α)
  | destroyed

/-- A `LocalHandle` in the ambient-handle model: the identity of the
Local it references. -/
structure LocalHandleM where
  localId : Nat
deriving DecidableEq, Repr

/-- A `Guard` in the ambient-handle model: the pinned Local it proves. -/
structure GuardM where
  localId : Nat
deriving DecidableEq, Repr

/-- `LocalHandle::pin` at the ambient-handle level of detail: the Guard
references the handle's Local. -/
def LocalHandleM.pin (h : LocalHandleM) : GuardM :=
  ⟨h.localId⟩

/-- `LocalKey::try_with` of the thread-scoped storage capability:
initializes on first use (`freshTl` is the `collector().register()`
initializer of the HANDLE thread-local), returns the stored value while
valid, and an access error after teardown. -/
def tryWith {α R : Type} (tls : TLSState α) (freshTl : α) (f : α → R) :
    Except Unit R :=
  match tls with
  | TLSState.uninitialized => Except.ok (f freshTl)
  | TLSState.valid a => Except.ok (f a)
  | TLSState.destroyed => Except.error ()

/-- `with_handle` (default.rs lines 39–47):
`HANDLE.try_with(|h| f(h)).unwrap_or_else(|_| f(&collector().register()))`
— on an access error it registers a fresh one-off handle instead of
propagating the failure. -/
def with_handle {R : Type} (tls : TLSState LocalHandleM)
    (freshTl freshOneOff : LocalHandleM) (f : LocalHandleM → R) : R :=
  match tryWith tls freshTl f with
  | Except.ok r => r
  | Except.error _ => f freshOneOff

/-- `cs()` (default.rs lines 28–32): pins through the ambient handle. -/
def cs (tls : TLSState LocalHandleM) (freshTl freshOneOff : LocalHandleM) :
    GuardM :=
  with_handle tls freshTl freshOneOff LocalHandleM.pin

/-- Occurrences of action id `a` in a list of action ids. -/
def countId (a : Nat) (l : List Nat) : Nat :=
  l.countP fun x => x == a

/-- Occurrences of action id `a` across all open bags. -/
def bagCount {n : Nat} (a : Nat) (s : GState n) : Nat :=
  ∑ i : Fin n, countId a (s.participants i).bag

/-- Occurrences of action id `a` across the sealed bags of the queue. -/
def queueCount {n : Nat} (a : Nat) (s : GState n) : Nat :=
  (s.queue.map fun b => countId a b.actions).sum

/-- Number of times action id `a` has been executed. -/
def execCount {n : Nat} (a : Nat) (s : GState n) : Nat :=
  s.executed.countP fun r => r.act == a

/-- Total occurrences of action id `a` anywhere in the system: still open,
sealed and queued, or already executed. -/
def totalCount {n : Nat} (a : Nat) (s : GState n) : Nat :=
  bagCount a s + queueCount a s + execCount a s

/-- Invariant for C3: the pinned flag is set iff the pin-depth is
positive. -/
def FlagInv {n : Nat} (s : GState n) : Prop :=
  ∀ i : Fin n,
    (s.participants i).pinnedFlag = true ↔ 0 < (s.participants i).pinDepth

/-- Invariant for C10: a pinned participant's recorded epoch is at most
the global epoch, and the global epoch is at most one past it. -/
def PinnedEpochInv {n : Nat} (s : GState n) : Prop :=
  ∀ i : Fin n, (s.participants i).pinnedFlag = true →
    (s.participants i).pinnedEpoch ≤ s.epoch ∧
      s.epoch ≤ (s.participants i).pinnedEpoch + 1

/-- Invariant for C1: every executed action ran at least two epochs after
its bag was sealed, and no later than the current epoch. -/
def ExecInv {n : Nat} (s : GState n) : Prop :=
  ∀ r ∈ s.executed, r.sealEpoch + 2 ≤ r.execEpoch ∧ r.execEpoch ≤ s.epoch

/-- Invariant for C2: every issued action id occurs exactly once in the
whole system (open bag, queue or execution log); unissued ids occur
nowhere. -/
def CountInv {n : Nat} (s : GState n) : Prop :=
  ∀ a : Nat, totalCount a s = if a < s.nextId then 1 else 0

/-- Concrete one-participant run used by the witnesses: initial state. -/
def demo0 : GState 1 :=
  init 1

/-- After participant 0 pins (records epoch 0). -/
def demo1 : GState 1 :=
  { demo0 with
    participants := Function.update demo0.participants 0
      ((demo0.participants 0).doPin demo0.epoch) }

/-- After one `try_advance` with participant 0 still pinned at the
current epoch (the advance succeeds). -/
def demo1adv : GState 1 :=
  (try_advance demo1).2

/-- After deferring one action (id 0) into the open bag. -/
def demo2 : GState 1 :=
  { demo1 with
    participants := Function.update demo1.participants 0
      { demo1.participants 0 with bag := (demo1.participants 0).bag ++ [demo1.nextId] },
    nextId := demo1.nextId + 1 }

/-- After flushing: the bag ⟨seal epoch 0, [0]⟩ is on the queue. -/
def demo3 : GState 1 :=
  flushLocal demo2 0

/-- After unpinning. -/
def demo4 : GState 1 :=
  { demo3 with
    participants := Function.update demo3.participants 0
      (demo3.participants 0).doUnpin }

/-- After a successful advance (epoch 1). -/
def demo5 : GState 1 :=
  (try_advance demo4).2

/-- After a second successful advance (epoch 2). -/
def demo6 : GState 1 :=
  (try_advance demo5).2

/-- After `collect` pops and executes the sealed bag (its seal epoch 0 is
at most 2 − 2). -/
def demo7 : GState 1 :=
  { demo6 with
    queue := [],
    executed := demo6.executed ++
      (SealedBag.mk 0 [0]).actions.map fun a =>
        ⟨a, (SealedBag.mk 0 [0]).sealEpoch, demo6.epoch⟩ }

/-- On abstract counters that are in order and less than one wraparound
apart, `wrapping_sub` of the machine representations computes the exact
distance. -/
lemma wrapping_sub_eq_sub {a b : Nat} (hle : b ≤ a) (hlt : a - b < USIZE_MOD) :
    wrapping_sub a b = a - b := by
  unfold wrapping_sub USIZE_MOD at *
  omega

/-- A single engine step never decreases the global epoch. -/
lemma epoch_mono_step {n : Nat} {s s' : GState n} (h : Step s s') :
    s.epoch ≤ s'.epoch := by
  cases h
  case advance =>
    unfold try_advance
    split
    · exact Nat.le_succ _
    · exact le_rfl
  all_goals exact le_rfl

/-- Along any interleaving, the global epoch never decreases. -/
lemma epoch_mono {n : Nat} {s s' : GState n}
    (h : Relation.ReflTransGen Step s s') : s.epoch ≤ s'.epoch := by
  induction h with
  | refl => exact le_rfl
  | tail _ hstep ih => exact le_trans ih (epoch_mono_step hstep)

/-- C4: the global epoch never decreases — under single steps and under
arbitrary interleavings — and `try_advance` performs a single CAS from
its snapshot to snapshot+1: on success the epoch grows by exactly 1, on
failure the state is untouched. -/
theorem epoch_monotone_advance_by_one :
    (∀ (n : Nat) (s s' : GState n), Step s s' → s.epoch ≤ s'.epoch) ∧
    (∀ (n : Nat) (s s' : GState n),
      Relation.ReflTransGen Step s s' → s.epoch ≤ s'.epoch) ∧
    ∀ (n : Nat) (s : GState n),
      ((try_advance s).1 = true → (try_advance s).2.epoch = s.epoch + 1) ∧
      ((try_advance s).1 = false → (try_advance s).2 = s) := by
  refine ⟨fun n s s' h => epoch_mono_step h,
          fun n s s' h => epoch_mono h,
          fun n s => ?_⟩
  by_cases hc : canAdvance s <;> simp [try_advance, hc]

/-- C9: `Collector::global_epoch()` returns the current value of the
Global's epoch counter using a relaxed atomic load, issues no memory
fence, and leaves the whole collector state unchanged. -/
theorem global_epoch_pure_relaxed_read : ∀ (n : Nat) (s : GState n),
    (global_epoch s).1 = s.epoch ∧
    (global_epoch s).2.1 = s ∧
    (global_epoch s).2.2 = [MemEvent.load MemOrdering.relaxed] ∧
    MemEvent.fence ∉ (global_epoch s).2.2 := by
  intro n s
  refine ⟨rfl, rfl, rfl, ?_⟩
  simp [global_epoch]

/-- C7: two Collectors are equal iff they reference the same underlying
Global (pointer identity of the shared Arc target); two Collectors from
separate `Collector::new()` calls are unequal. -/
theorem collector_eq_iff_same_global :
    (∀ a b : Collector, collectorEq a b = true ↔ a.global = b.global) ∧
    ∀ alloc : Nat,
      collectorEq (Collector.new alloc).1
        (Collector.new (Collector.new alloc).2).1 = false := by
  constructor
  · intro a b
    simp [collectorEq]
  · intro alloc
    simp [collectorEq, Collector.new]

/-- C8: `c.clone()` references the same underlying Global as `c`, hence
`c.clone() == c`. -/
theorem clone_references_same_global :
    ∀ c : Collector, (Collector.clone c).global = c.global ∧
      collectorEq (Collector.clone c) c = true := by
  intro c
  refine ⟨rfl, ?_⟩
  simp [collectorEq, Collector.clone]

/-- Step of the demo run: pinning. -/
lemma step01 : Step demo0 demo1 :=
  Step.pin demo0 0

/-- Step of the demo run: deferring action 0. -/
lemma step12 : Step demo1 demo2 :=
  Step.deferPush demo1 0 (by decide) (by decide)

/-- Step of the demo run: flushing. -/
lemma step23 : Step demo2 demo3 :=
  Step.flush demo2 0 (by decide)

/-- Step of the demo run: unpinning. -/
lemma step34 : Step demo3 demo4 :=
  Step.unpin demo3 0 (by decide)

/-- Step of the demo run: first advance. -/
lemma step45 : Step demo4 demo5 :=
  Step.advance demo4

/-- Step of the demo run: second advance. -/
lemma step56 : Step demo5 demo6 :=
  Step.advance demo5

/-- Step of the demo run: executing the sealed bag. -/
lemma step67 : Step demo6 demo7 :=
  Step.popExec demo6 (SealedBag.mk 0 [0]) [] (by decide) (by decide)

/-- The pinned demo state is reachable. -/
lemma reach_demo1 : Reachable 1 demo1 :=
  Relation.ReflTransGen.single step01

/-- The final demo state (action 0 executed at epoch 2) is reachable. -/
lemma reach_demo7 : Reachable 1 demo7 :=
  (((((reach_demo1.tail step12).tail step23).tail step34).tail
    step45).tail step56).tail step67

/-- The pinned-flag invariant is preserved by every engine step. -/
lemma flagInv_step {n : Nat} {s s' : GState n} (h : Step s s')
    (hs : FlagInv s) : FlagInv s' := by
  cases h with
  | pin i =>
      intro j
      by_cases hji : j = i
      · subst hji
        have hi := hs j
        simp only [Function.update_same, Participant.doPin]
        split
        · simp
        · next hne =>
            have hpos : 0 < (s.participants j).pinDepth := Nat.pos_of_ne_zero hne
            simp [hi.mpr hpos]
      · simp only [Function.update_noteq hji]
        exact hs j
  | unpin i hdep =>
      intro j
      by_cases hji : j = i
      · subst hji
        have hi := hs j
        simp only [Function.update_same, Participant.doUnpin]
        split
        · simp
        · next hne =>
            have h1 : 0 < (s.participants j).pinDepth - 1 := by omega
            simp [hi.mpr hdep, h1]
      · simp only [Function.update_noteq hji]
        exact hs j
  | repin i hflag =>
      intro j
      by_cases hji : j = i
      · subst hji
        simp only [Function.update_same, Participant.doRepin]
        exact hs j
      · simp only [Function.update_noteq hji]
        exact hs j
  | deferPush i hdep hcap =>
      intro j
      by_cases hji : j = i
      · subst hji
        simp only [Function.update_same]
        exact hs j
      · simp only [Function.update_noteq hji]
        exact hs j
  | deferSeal i hdep hcap =>
      intro j
      by_cases hji : j = i
      · subst hji
        simp only [Function.update_same]
        exact hs j
      · simp only [Function.update_noteq hji]
        exact hs j
  | flush i hdep =>
      intro j
      unfold flushLocal
      by_cases hji : j = i
      · subst hji
        simp only [Function.update_same]
        exact hs j
      · simp only [Function.update_noteq hji]
        exact hs j
  | advance =>
      intro j
      unfold try_advance
      split
      · exact hs j
      · exact hs j
  | popExec b rest hq hb =>
      intro j
      exact hs j

/-- Every reachable state satisfies the pinned-flag invariant. -/
lemma reachable_flagInv {n : Nat} {s : GState n} (h : Reachable n s) :
    FlagInv s := by
  induction h with
  | refl =>
      intro i
      simp [init, initParticipant]
  | tail _ hstep ih => exact flagInv_step hstep ih

/-- C3: in every reachable state — i.e. after any sequence of pin/unpin
calls, arbitrarily interleaved with the rest of the engine —
`is_pinned()` returns true iff the number of outstanding pins is
positive. -/
theorem is_pinned_iff_outstanding_pins :
    ∀ (n : Nat) (s : GState n), Reachable n s → ∀ i : Fin n,
      (s.participants i).is_pinned = true ↔ 0 < (s.participants i).pinDepth := by
  intro n s h i
  exact reachable_flagInv h i

/-- Witness for C3 at the concrete pinned demo state. -/
theorem is_pinned_iff_outstanding_pins_witness :
    (demo1.participants 0).is_pinned = true ↔ 0 < (demo1.participants 0).pinDepth :=
  is_pinned_iff_outstanding_pins 1 demo1 reach_demo1 0

/-- C6: after the per-thread Handle storage is torn down, raw storage
access fails, yet `cs()` still returns a valid Guard by pinning a fresh
one-off registered Handle; in every storage state `cs()` returns the pin
of some Handle — it never fails. -/
theorem cs_after_teardown_never_panics :
    (∀ (fT : LocalHandleM) (f : LocalHandleM → GuardM),
        (tryWith TLSState.destroyed fT f).isOk = false) ∧
    (∀ fT fO : LocalHandleM, cs TLSState.destroyed fT fO = fO.pin) ∧
    ∀ (tls : TLSState LocalHandleM) (fT fO : LocalHandleM),
      ∃ h : LocalHandleM, cs tls fT fO = h.pin := by
  refine ⟨fun fT f => rfl, fun fT fO => rfl, fun tls fT fO => ?_⟩
  cases tls with
  | uninitialized => exact ⟨fT, rfl⟩
  | valid a => exact ⟨a, rfl⟩
  | destroyed => exact ⟨fO, rfl⟩

/-- The grace-period invariant is preserved by every engine step. -/
lemma execInv_step {n : Nat} {s s' : GState n} (h : Step s s')
    (hs : ExecInv s) : ExecInv s' := by
  have hmono := epoch_mono_step h
  cases h with
  | popExec b rest hq hb =>
      intro r hr
      have hr' : r ∈ s.executed ++ b.actions.map
          (fun a => ExecRecord.mk a b.sealEpoch s.epoch) := hr
      rcases List.mem_append.mp hr' with hmem | hmem
      · rcases hs r hmem with ⟨h1, h2⟩
        exact ⟨h1, h2⟩
      · rcases List.mem_map.mp hmem with ⟨a, ha, rfl⟩
        exact ⟨hb, le_rfl⟩
  | advance =>
      intro r hr
      by_cases hc : canAdvance s
      · simp only [try_advance, if_pos hc] at hr ⊢
        rcases hs r hr with ⟨h1, h2⟩
        exact ⟨h1, by omega⟩
      · simp only [try_advance, if_neg hc] at hr ⊢
        exact hs r hr
  | pin i =>
      intro r hr
      exact hs r hr
  | unpin i hdep =>
      intro r hr
      exact hs r hr
  | repin i hflag =>
      intro r hr
      exact hs r hr
  | deferPush i hdep hcap =>
      intro r hr
      exact hs r hr
  | deferSeal i hdep hcap =>
      intro r hr
      exact hs r hr
  | flush i hdep =>
      intro r hr
      exact hs r hr

/-- Every reachable state satisfies the grace-period invariant. -/
lemma reachable_execInv {n : Nat} {s : GState n} (h : Reachable n s) :
    ExecInv s := by
  induction h with
  | refl =>
      intro r hr
      exact absurd hr (List.not_mem_nil r)
  | tail _ hstep ih => exact execInv_step hstep ih

/-- C1: under every interleaving, an action from a Bag sealed at epoch E
executes only at a moment when the global epoch is at least E+2 (and the
epoch has not decreased since). -/
theorem no_early_reclamation :
    ∀ (n : Nat) (s : GState n), Reachable n s →
      ∀ r ∈ s.executed, r.sealEpoch + 2 ≤ r.execEpoch ∧ r.execEpoch ≤ s.epoch := by
  intro n s h
  exact reachable_execInv h

/-- Witness for C1: in the demo run the action sealed at epoch 0 executed
at epoch 2. -/
theorem no_early_reclamation_witness :
    (ExecRecord.mk 0 0 2).sealEpoch + 2 ≤ (ExecRecord.mk 0 0 2).execEpoch ∧
      (ExecRecord.mk 0 0 2).execEpoch ≤ demo7.epoch :=
  no_early_reclamation 1 demo7 reach_demo7 (ExecRecord.mk 0 0 2) (by decide)

/-- The pinned-epoch window invariant is preserved by every engine
step. -/
lemma pinnedEpochInv_step {n : Nat} {s s' : GState n} (h : Step s s')
    (hs : PinnedEpochInv s) : PinnedEpochInv s' := by
  cases h with
  | pin i =>
      intro j hflag
      by_cases hji : j = i
      · subst hji
        by_cases hd : (s.participants j).pinDepth = 0
        · simp only [Function.update_same, Participant.doPin, if_pos hd]
          omega
        · simp only [Function.update_same, Participant.doPin, if_neg hd] at hflag ⊢
          exact hs j hflag
      · simp only [Function.update_noteq hji] at hflag ⊢
        exact hs j hflag
  | unpin i hdep =>
      intro j hflag
      by_cases hji : j = i
      · subst hji
        by_cases hd : (s.participants j).pinDepth = 1
        · simp only [Function.update_same, Participant.doUnpin, if_pos hd] at hflag
          simp at hflag
        · simp only [Function.update_same, Participant.doUnpin, if_neg hd] at hflag ⊢
          exact hs j hflag
      · simp only [Function.update_noteq hji] at hflag ⊢
        exact hs j hflag
  | repin i hflag0 =>
      intro j hflag
      by_cases hji : j = i
      · subst hji
        simp only [Function.update_same, Participant.doRepin]
        omega
      · simp only [Function.update_noteq hji] at hflag ⊢
        exact hs j hflag
  | deferPush i hdep hcap =>
      intro j hflag
      by_cases hji : j = i
      · subst hji
        simp only [Function.update_same] at hflag ⊢
        exact hs j hflag
      · simp only [Function.update_noteq hji] at hflag ⊢
        exact hs j hflag
  | deferSeal i hdep hcap =>
      intro j hflag
      by_cases hji : j = i
      · subst hji
        simp only [Function.update_same] at hflag ⊢
        exact hs j hflag
      · simp only [Function.update_noteq hji] at hflag ⊢
        exact hs j hflag
  | flush i hdep =>
      intro j hflag
      unfold flushLocal at hflag ⊢
      by_cases hji : j = i
      · subst hji
        simp only [Function.update_same] at hflag ⊢
        exact hs j hflag
      · simp only [Function.update_noteq hji] at hflag ⊢
        exact hs j hflag
  | advance =>
      intro j hflag
      by_cases hc : canAdvance s
      · simp only [try_advance, if_pos hc] at hflag ⊢
        have hall : ∀ k : Fin n, (s.participants k).pinnedFlag = true →
            (s.participants k).pinnedEpoch = s.epoch := of_decide_eq_true hc
        have hj := hall j hflag
        omega
      · simp only [try_advance, if_neg hc] at hflag ⊢
        exact hs j hflag
  | popExec b rest hq hb =>
      intro j hflag
      exact hs j hflag

/-- Every reachable state satisfies the pinned-epoch window invariant. -/
lemma reachable_pinnedEpochInv {n : Nat} {s : GState n} (h : Reachable n s) :
    PinnedEpochInv s := by
  induction h with
  | refl =>
      intro i hflag
      simp [init, initParticipant] at hflag
  | tail _ hstep ih => exact pinnedEpochInv_step hstep ih

/-- Along pin-holding steps the held participant's flag and recorded
epoch do not change. -/
lemma pinHeld_rtc_flag {n : Nat} {i : Fin n} {s s' : GState n}
    (h : Relation.ReflTransGen (PinHeld i) s s') :
    (s'.participants i).pinnedFlag = (s.participants i).pinnedFlag ∧
    (s'.participants i).pinnedEpoch = (s.participants i).pinnedEpoch := by
  induction h with
  | refl => exact ⟨rfl, rfl⟩
  | tail _ hstep ih => exact ⟨hstep.2.1.trans ih.1, hstep.2.2.trans ih.2⟩

/-- Pin-holding steps are engine steps. -/
lemma pinHeld_rtc_steps {n : Nat} {i : Fin n} {s s' : GState n}
    (h : Relation.ReflTransGen (PinHeld i) s s') :
    Relation.ReflTransGen Step s s' :=
  Relation.ReflTransGen.mono (fun _ _ hp => hp.1) h

/-- C10: while a participant holds a pin, any stretch of engine activity
(in particular one `collect()` call) moves the global epoch forward by at
most 2, measured both exactly and by wrapping subtraction of the machine
representations. -/
theorem pinned_participant_bounds_epoch_advance :
    ∀ (n : Nat) (s1 s2 : GState n) (i : Fin n),
      Reachable n s1 →
      (s1.participants i).pinnedFlag = true →
      Relation.ReflTransGen (PinHeld i) s1 s2 →
      s1.epoch ≤ s2.epoch ∧ s2.epoch - s1.epoch ≤ 2 ∧
        wrapping_sub s2.epoch s1.epoch ≤ 2 := by
  intro n s1 s2 i h1 hflag hrtc
  have hsteps := pinHeld_rtc_steps hrtc
  have h2 : Reachable n s2 := Relation.ReflTransGen.trans h1 hsteps
  have hpres := pinHeld_rtc_flag hrtc
  have hinv1 := reachable_pinnedEpochInv h1 i hflag
  have hflag2 : (s2.participants i).pinnedFlag = true := hpres.1.trans hflag
  have hinv2 := reachable_pinnedEpochInv h2 i hflag2
  have hmono := epoch_mono hsteps
  have hpe : (s2.participants i).pinnedEpoch = (s1.participants i).pinnedEpoch :=
    hpres.2
  refine ⟨hmono, by omega, ?_⟩
  rw [wrapping_sub_eq_sub hmono (by unfold USIZE_MOD; omega)]
  omega

/-- One pin-holding advance step in the demo run. -/
lemma pinHeld_demo : Relation.ReflTransGen (PinHeld (0 : Fin 1)) demo1 demo1adv :=
  Relation.ReflTransGen.single ⟨Step.advance demo1, by decide, by decide⟩

/-- Witness for C10: a successful advance under the demo pin moves the
epoch from 0 to 1, within the bound. -/
theorem pinned_participant_bounds_epoch_advance_witness :
    demo1.epoch ≤ demo1adv.epoch ∧ demo1adv.epoch - demo1.epoch ≤ 2 ∧
      wrapping_sub demo1adv.epoch demo1.epoch ≤ 2 :=
  pinned_participant_bounds_epoch_advance 1 demo1 demo1adv 0 reach_demo1
    (by decide) pinHeld_demo

/-- The steps `collect()` performs after sealing (one advance attempt
and queue pops) never touch any participant's state. -/
lemma collectStep_participants {n : Nat} {s s' : GState n}
    (h : CollectStep s s') : s'.participants = s.participants := by
  rcases h with h | ⟨b, rest, hq, hb, h⟩
  · subst h
    unfold try_advance
    split <;> rfl
  · subst h
    rfl

/-- C5: immediately after `flush()` the calling Local's open Bag is
empty, and it stays empty through the collection `flush()` then runs. -/
theorem flush_completeness :
    ∀ (n : Nat) (s : GState n) (i : Fin n),
      ((flushLocal s i).participants i).bag = [] ∧
      ∀ s₂ : GState n, Relation.ReflTransGen CollectStep (flushLocal s i) s₂ →
        (s₂.participants i).bag = [] := by
  intro n s i
  have hbase : ((flushLocal s i).participants i).bag = [] := by
    unfold flushLocal
    simp only [Function.update_same]
  refine ⟨hbase, fun s₂ h => ?_⟩
  have hp : s₂.participants = (flushLocal s i).participants := by
    induction h with
    | refl => rfl
    | tail _ hstep ih => exact (collectStep_participants hstep).trans ih
  rw [hp]
  exact hbase

/-- Updating one participant shifts the bag-count sum by the difference
of old and new contributions. -/
lemma sum_update_add {n : Nat} (f : Fin n → Nat) (i : Fin n) (b : Nat) :
    f i + ∑ j, Function.update f i b j = b + ∑ j, f j := by
  rw [Finset.sum_update_of_mem (Finset.mem_univ i)]
  rw [Finset.sum_eq_add_sum_diff_singleton (Finset.mem_univ i) f]
  omega

/-- Bag-count sums under a participant update. -/
lemma sum_countId_update {n : Nat} (f : Fin n → Participant) (i : Fin n)
    (p : Participant) (a : Nat) :
    countId a (f i).bag + ∑ j, countId a (Function.update f i p j).bag
      = countId a p.bag + ∑ j, countId a (f j).bag := by
  have h : (fun j => countId a (Function.update f i p j).bag)
      = Function.update (fun j => countId a (f j).bag) i (countId a p.bag) := by
    funext j
    by_cases hji : j = i
    · subst hji
      simp
    · simp [Function.update_noteq hji]
  rw [h]
  exact sum_update_add (fun j => countId a (f j).bag) i (countId a p.bag)

/-- Occurrence counting distributes over append. -/
lemma countId_append (a : Nat) (l1 l2 : List Nat) :
    countId a (l1 ++ l2) = countId a l1 + countId a l2 :=
  List.countP_append _ l1 l2

/-- Occurrences of `a` in a one-element list. -/
lemma countId_singleton (a x : Nat) :
    countId a [x] = if a = x then 1 else 0 := by
  unfold countId
  rcases eq_or_ne a x with h | h
  · subst h
    simp
  · rw [if_neg h]
    simp [List.countP_cons, List.countP_nil, Ne.symm h]

/-- Executing the actions of a sealed bag contributes exactly its
occurrence count to the execution log. -/
lemma execCountP_map (a se ep : Nat) (l : List Nat) :
    (l.map fun x => ExecRecord.mk x se ep).countP (fun r => r.act == a)
      = countId a l := by
  rw [List.countP_map]
  rfl

/-- `totalCount` of an explicitly built state. -/
lemma totalCount_mk {n : Nat} (a e k : Nat) (f : Fin n → Participant)
    (q : List SealedBag) (ex : List ExecRecord) :
    totalCount a (GState.mk e f q ex k)
      = (∑ j, countId a (f j).bag) + (q.map fun b => countId a b.actions).sum
        + ex.countP (fun r => r.act == a) :=
  rfl

/-- `nextId` of an explicitly built state. -/
lemma nextId_mk {n : Nat} (e k : Nat) (f : Fin n → Participant)
    (q : List SealedBag) (ex : List ExecRecord) :
    (GState.mk e f q ex k).nextId = k :=
  rfl

/-- The conservation invariant is preserved by every engine step. -/
lemma countInv_step {n : Nat} {s s' : GState n} (h : Step s s')
    (hs : CountInv s) : CountInv s' := by
  cases h with
  | pin i =>
      intro a
      have hbag : ((s.participants i).doPin s.epoch).bag = (s.participants i).bag := by
        unfold Participant.doPin
        split <;> rfl
      have hkey := sum_countId_update s.participants i
        ((s.participants i).doPin s.epoch) a
      rw [hbag] at hkey
      have hold := hs a
      unfold totalCount bagCount queueCount execCount at hold
      simp only [totalCount_mk, nextId_mk]
      rw [← hold]
      omega
  | unpin i hdep =>
      intro a
      have hbag : ((s.participants i).doUnpin).bag = (s.participants i).bag := by
        unfold Participant.doUnpin
        split <;> rfl
      have hkey := sum_countId_update s.participants i
        (s.participants i).doUnpin a
      rw [hbag] at hkey
      have hold := hs a
      unfold totalCount bagCount queueCount execCount at hold
      simp only [totalCount_mk, nextId_mk]
      rw [← hold]
      omega
  | repin i hflag =>
      intro a
      have hbag : ((s.participants i).doRepin s.epoch).bag
          = (s.participants i).bag := rfl
      have hkey := sum_countId_update s.participants i
        ((s.participants i).doRepin s.epoch) a
      rw [hbag] at hkey
      have hold := hs a
      unfold totalCount bagCount queueCount execCount at hold
      simp only [totalCount_mk, nextId_mk]
      rw [← hold]
      omega
  | deferPush i hdep hcap =>
      intro a
      have hkey := sum_countId_update s.participants i
        { s.participants i with bag := (s.participants i).bag ++ [s.nextId] } a
      simp only [countId_append, countId_singleton] at hkey
      have hold := hs a
      unfold totalCount bagCount queueCount execCount at hold
      simp only [totalCount_mk, nextId_mk]
      split_ifs at hold hkey ⊢ <;> omega
  | deferSeal i hdep hcap =>
      intro a
      have hkey := sum_countId_update s.participants i
        { s.participants i with bag := [s.nextId] } a
      simp only [countId_singleton] at hkey
      have hold := hs a
      unfold totalCount bagCount queueCount execCount at hold
      simp only [totalCount_mk, nextId_mk, List.map_append, List.sum_append,
        List.map_cons, List.sum_cons, List.map_nil, List.sum_nil]
      split_ifs at hold hkey ⊢ <;> omega
  | flush i hdep =>
      intro a
      have hkey := sum_countId_update s.participants i
        ⟨(s.participants i).pinDepth, (s.participants i).pinnedEpoch,
          (s.participants i).pinnedFlag, []⟩ a
      have h0 : countId a ([] : List Nat) = 0 := rfl
      rw [h0] at hkey
      have hold := hs a
      unfold totalCount bagCount queueCount execCount at hold
      simp only [flushLocal, totalCount_mk, nextId_mk, List.map_append,
        List.sum_append, List.map_cons, List.sum_cons, List.map_nil,
        List.sum_nil]
      rw [← hold]
      omega
  | advance =>
      intro a
      by_cases hc : canAdvance s
      · simp only [try_advance, if_pos hc]
        have hold := hs a
        unfold totalCount bagCount queueCount execCount at hold
        simp only [totalCount_mk, nextId_mk]
        exact hold
      · simp only [try_advance, if_neg hc]
        exact hs a
  | popExec b rest hq hb =>
      intro a
      have hold := hs a
      unfold totalCount bagCount queueCount execCount at hold
      rw [hq] at hold
      simp only [List.map_cons, List.sum_cons] at hold
      simp only [totalCount_mk, nextId_mk, List.countP_append, execCountP_map]
      split_ifs at hold ⊢ <;> omega

/-- Every reachable state satisfies the conservation invariant. -/
lemma reachable_countInv {n : Nat} {s : GState n} (h : Reachable n s) :
    CountInv s := by
  induction h with
  | refl =>
      intro a
      simp [init, initParticipant, totalCount, bagCount, queueCount,
        execCount, countId]
  | tail _ hstep ih => exact countInv_step hstep ih

/-- C2: in every reachable state, each deferred action occurs exactly
once across open bags, the queue and the execution log: it is executed
at most once, and while unexecuted it is held in exactly one pending
place — no action is duplicated or lost by concurrent `collect()`s. -/
theorem deferred_action_exactly_once :
    ∀ (n : Nat) (s : GState n), Reachable n s → ∀ a : Nat, a < s.nextId →
      totalCount a s = 1 ∧ execCount a s ≤ 1 ∧
        (execCount a s = 0 → bagCount a s + queueCount a s = 1) := by
  intro n s h a ha
  have h1 := reachable_countInv h a
  rw [if_pos ha] at h1
  have h2 := h1
  unfold totalCount at h2
  exact ⟨h1, by omega, by omega⟩

/-- Witness for C2: action 0 of the demo run occurs exactly once (it has
been executed). -/
theorem deferred_action_exactly_once_witness :
    totalCount 0 demo7 = 1 ∧ execCount 0 demo7 ≤ 1 ∧
      (execCount 0 demo7 = 0 → bagCount 0 demo7 + queueCount 0 demo7 = 1) :=
  deferred_action_exactly_once 1 demo7 reach_demo7 0 (by decide)

end Circ
